import Mathlib

/-!
Verification development for the variable-name standardization system
(`variable_name_standardizer.py`, `terminology_manager.py`, `advanced_analyzer.py`).

Strings are modelled as `List Char` (`Str`).  Python's `str.lower`, character
classes and the regular expressions used by the code are modelled for the
character ranges the program actually manipulates: ASCII letters/digits,
underscore, hyphen, whitespace, and the Hangul syllable block U+AC00..U+D7A3
(the code's own Korean range `[가-힣]`); all other characters are treated as
un-cased non-word characters, which agrees with Python on every character the
program's tables and regexes distinguish.
-/

namespace VNS

/-- Strings are lists of characters. -/
abbrev Str := List Char

/-- Build a character from a code point below U+D800 (all code points used
here are in that range). `toNat` of the result reduces definitionally. -/
def chr (n : Nat) (h : n < 55296) : Char :=
  ⟨⟨BitVec.ofNatLt n (Nat.lt_trans h (by norm_num))⟩, Or.inl h⟩

theorem chr_toNat (n : Nat) (h : n < 55296) : (chr n h).toNat = n := rfl

/-- ASCII uppercase letter (`[A-Z]`). -/
def isUp (c : Char) : Bool := decide (65 ≤ c.toNat ∧ c.toNat ≤ 90)

/-- ASCII lowercase letter (`[a-z]`). -/
def isLo (c : Char) : Bool := decide (97 ≤ c.toNat ∧ c.toNat ≤ 122)

/-- ASCII digit (`[0-9]`). -/
def isDig (c : Char) : Bool := decide (48 ≤ c.toNat ∧ c.toNat ≤ 57)

/-- Hangul syllable, the code's Korean character class `[가-힣]`. -/
def isHangulC (c : Char) : Bool := decide (44032 ≤ c.toNat ∧ c.toNat ≤ 55203)

/-- ASCII letter (`[a-zA-Z]`). -/
def isAlphaC (c : Char) : Bool := isUp c || isLo c

/-- ASCII alphanumeric. -/
def isAlnumC (c : Char) : Bool := isAlphaC c || isDig c

/-- Word character for the regex `\w`, for the scripts the program uses. -/
def isWordC (c : Char) : Bool := isAlnumC c || c = '_' || isHangulC c

/-- Whitespace for the regex `\s` (ASCII part). -/
def isSpaceC (c : Char) : Bool := c = ' ' || c = '\t' || c = '\n' || c = '\r'

/-- Model of Python `str.lower` on one character (ASCII range; other
characters, including Hangul, are unchanged, as in Python). -/
def lowerChar (c : Char) : Char :=
  if h : 65 ≤ c.toNat ∧ c.toNat ≤ 90 then chr (c.toNat + 32) (by omega) else c

/-- Model of Python `str.upper` on one character (ASCII range). -/
def upperChar (c : Char) : Char :=
  if h : 97 ≤ c.toNat ∧ c.toNat ≤ 122 then chr (c.toNat - 32) (by omega) else c

/-- Python `str.lower` on a string. -/
def lowerStr (s : Str) : Str := s.map lowerChar

/-- Python `str.capitalize`: first character uppercased, the rest lowercased. -/
def pycapitalize : Str → Str
  | [] => []
  | c :: cs => upperChar c :: lowerStr cs

/-- Python `str.split(sep)` for a one-character separator: splits at every
occurrence and keeps empty pieces (`"".split(c) == [""]`). -/
def pysplit (sep : Char) : Str → List Str
  | [] => [[]]
  | c :: cs =>
    if c = sep then [] :: pysplit sep cs
    else
      match pysplit sep cs with
      | [] => [[c]]
      | p :: ps => (c :: p) :: ps

/-- Python `sep.join(parts)` for a one-character separator. -/
def joinSep (sep : Char) : List Str → Str
  | [] => []
  | [p] => p
  | p :: ps => p ++ sep :: joinSep sep ps

/-- If `pat` is a prefix of `s`, return the remainder of `s`. -/
def dropPrefixQ : Str → Str → Option Str
  | [], s => some s
  | _ :: _, [] => none
  | p :: ps, c :: cs => if p = c then dropPrefixQ ps cs else none

/-- Worker for `pyreplace`, with fuel bounded by the length of the scanned
string (every step consumes at least one character of it). -/
def pyreplaceF : Nat → Str → Str → Str → Str
  | 0, s, _, _ => s
  | _ + 1, [], _, _ => []
  | fuel + 1, c :: cs, pat, rep =>
    match dropPrefixQ pat (c :: cs) with
    | some rest => rep ++ pyreplaceF fuel rest pat rep
    | none => c :: pyreplaceF fuel cs pat rep

/-- Python `s.replace(pat, rep)`: every non-overlapping occurrence, scanned
left to right.  All patterns the program uses are nonempty. -/
def pyreplace (s pat rep : Str) : Str :=
  if pat = [] then s else pyreplaceF s.length s pat rep

/-- Python `s.strip(c)` for a one-character strip set. -/
def pyStrip (c : Char) (s : Str) : Str :=
  ((s.dropWhile (fun d => d = c)).reverse.dropWhile (fun d => d = c)).reverse

/-- Worker for `collapseUnd`: the flag records whether the previous character
was an underscore that has already been emitted. -/
def collapseUndGo : Bool → Str → Str
  | _, [] => []
  | prevU, c :: cs =>
    if c = '_' then
      if prevU then collapseUndGo true cs else '_' :: collapseUndGo true cs
    else c :: collapseUndGo false cs

/-- The regex substitution `re.sub(r'_+', '_', s)`: collapse runs of
underscores. -/
def collapseUnd (s : Str) : Str := collapseUndGo false s

/-- Scanner state for `camelParts`: `none` when between matches, or
`some (inUpperRun, pendingReversed)` while a candidate match is being read
(`pendingReversed` holds the pending characters in reverse order;
`inUpperRun = true` while reading a run for the `[A-Z]+(?=[A-Z][a-z]|\b)`
alternative, `false` once inside `[A-Z]?[a-z]+`). -/
def cpGo : Option (Bool × Str) → Str → List Str
  | none, [] => []
  | some (_, acc), [] => [acc.reverse]
  | none, c :: cs =>
    if isLo c then cpGo (some (false, [c])) cs
    else if isUp c then cpGo (some (true, [c])) cs
    else cpGo none cs
  | some (false, acc), c :: cs =>
    if isLo c then cpGo (some (false, c :: acc)) cs
    else if isUp c then acc.reverse :: cpGo (some (true, [c])) cs
    else acc.reverse :: cpGo none cs
  | some (true, acc), c :: cs =>
    if isUp c then cpGo (some (true, c :: acc)) cs
    else if isLo c then
      match acc with
      | [] => cpGo none cs
      | u :: rest =>
        if rest = [] then cpGo (some (false, [c, u])) cs
        else rest.reverse :: cpGo (some (false, [c, u])) cs
    else if isWordC c then cpGo none cs
    else acc.reverse :: cpGo none cs

/-- `re.findall(r'[A-Z]?[a-z]+|[A-Z]+(?=[A-Z][a-z]|\b)', name)`, the
case-boundary segmentation shared by the splitting helpers.  The scanner
mirrors the regex engine: a lowercase run (with optional leading capital)
always matches; an uppercase run matches fully before a word boundary, or
gives up its last letter to the following capitalized word; an uppercase run
followed by a digit/underscore/Hangul word character matches nothing and is
skipped. -/
def camelParts (s : Str) : List Str := cpGo none s

/-- The five naming conventions of the `NamingConvention` enum. -/
inductive NamingConvention where
  | snake
  | camel
  | pascal
  | kebab
  | upperSnake
deriving DecidableEq, Repr

/-- `_split_name_parts` of `VariableNameAnalyzer`: split on `_`, else on `-`,
else by case boundaries (no fallback for an empty part list). -/
def splitNameParts (name : Str) : List Str :=
  if '_' ∈ name then pysplit '_' name
  else if '-' ∈ name then pysplit '-' name
  else camelParts name

/-- `_split_variable_name` of `TerminologyDictionary`: split on `_`, else by
case boundaries, else on `-`, else the whole name. -/
def splitVariableName (name : Str) : List Str :=
  if '_' ∈ name then pysplit '_' name
  else
    match camelParts name with
    | [] => if '-' ∈ name then pysplit '-' name else [name]
    | p :: ps => p :: ps

/-- `_apply_convention` of `VariableNameAnalyzer`. -/
def applyConvention (name : Str) (conv : NamingConvention) : Str :=
  match conv with
  | .snake => joinSep '_' ((splitNameParts name).map lowerStr)
  | .camel =>
    match splitNameParts name with
    | [] => name
    | p :: ps => lowerStr p ++ (ps.map pycapitalize).flatten
  | .pascal => ((splitNameParts name).map pycapitalize).flatten
  | _ => name

/-- Acceptor state for the regex fragment `([A-Z][a-z]+)*` and its prefixes:
`expectUp` before a group, `needLo` right after the group's capital,
`inLo` inside the group's lowercase run. -/
inductive CGState where
  | expectUp
  | needLo
  | inLo
deriving DecidableEq

/-- Deterministic acceptor used by the convention regexes. -/
def cgGo : CGState → Str → Bool
  | st, [] => st = CGState.expectUp ∨ st = CGState.inLo
  | st, c :: cs =>
    match st with
    | .expectUp => if isUp c then cgGo .needLo cs else false
    | .needLo => if isLo c then cgGo .inLo cs else false
    | .inLo =>
      if isLo c then cgGo .inLo cs
      else if isUp c then cgGo .needLo cs
      else false

/-- `re.match(r'^[a-z]+(_[a-z]+)*$', s)`: nonempty lowercase groups joined by
single underscores. -/
def matchesSnake (s : Str) : Bool :=
  (pysplit '_' s).all (fun g => !g.isEmpty && g.all isLo)

/-- `re.match(r'^[a-z]+([A-Z][a-z]+)*$', s)`. -/
def matchesCamel (s : Str) : Bool :=
  match s with
  | [] => false
  | c :: _ => isLo c && cgGo .inLo s

/-- `re.match(r'^[A-Z][a-z]+([A-Z][a-z]+)*$', s)`. -/
def matchesPascal (s : Str) : Bool :=
  match s with
  | [] => false
  | _ :: _ => cgGo .expectUp s

/-- `_matches_convention` of `VariableNameAnalyzer` (`True` for conventions
without a regex check). -/
def matchesConvention (name : Str) (conv : NamingConvention) : Bool :=
  match conv with
  | .snake => matchesSnake name
  | .camel => matchesCamel name
  | .pascal => matchesPascal name
  | _ => true

/-- `TermEntry` of `variable_name_standardizer.py`. -/
structure TermEntry where
  term : Str
  standard_variable_name : Str
  description : Str
  related_terms : List Str
deriving DecidableEq, Repr

/-- The `terms` dict of `TerminologyDictionary`.  Python dict assignment is
modelled by prepending, dict lookup by first match: the most recent binding
of a key wins, exactly as overwriting does.  The claims about this store
observe it only through lookups. -/
abbrev TermDict := List (Str × TermEntry)

/-- Model of `self.terms[k] = entry`. -/
def dictInsert (m : TermDict) (k : Str) (v : TermEntry) : TermDict := (k, v) :: m

/-- Model of `self.terms.get(k)` / `k in self.terms`. -/
def dictFind (m : TermDict) (k : Str) : Option TermEntry :=
  (m.find? (fun p => p.1 == k)).map Prod.snd

/-- `TerminologyDictionary.add_term`: index the entry under the lowercased
key and under every lowercased related term. -/
def addTerm (m : TermDict) (key standard_name description : Str)
    (related_terms : List Str) : TermDict :=
  let entry : TermEntry := ⟨key, standard_name, description, related_terms⟩
  related_terms.foldl (fun acc r => dictInsert acc (lowerStr r) entry)
    (dictInsert m (lowerStr key) entry)

/-- The argument list of the `add_term` calls in
`_initialize_default_terms`, in source order. -/
def defaultTermArgs : List (Str × Str × Str × List Str) :=
  [ (("user".toList), ("user".toList), ("System user or account holder".toList),
      [("usr".toList), ("usuario".toList), ("customer".toList), ("client".toList)]),
    (("user_id".toList), ("user_id".toList), ("Unique identifier for a user".toList),
      [("uid".toList), ("userid".toList), ("user_identifier".toList), ("usr_id".toList)]),
    (("username".toList), ("username".toList), ("User's login name".toList),
      [("user_name".toList), ("uname".toList), ("login_name".toList), ("user_nm".toList)]),
    (("password".toList), ("password".toList), ("User authentication credential".toList),
      [("pwd".toList), ("pass".toList), ("passwd".toList), ("pw".toList)]),
    (("token".toList), ("token".toList), ("Authentication or session token".toList),
      [("tkn".toList), ("auth_token".toList), ("session_token".toList)]),
    (("data".toList), ("data".toList), ("Information or dataset".toList),
      [("datos".toList), ("info".toList), ("information".toList)]),
    (("result".toList), ("result".toList), ("Output or return value".toList),
      [("res".toList), ("resultado".toList), ("output".toList), ("ret".toList)]),
    (("error".toList), ("error".toList), ("Error condition or exception".toList),
      [("err".toList), ("erro".toList), ("exception".toList), ("exc".toList)]),
    (("message".toList), ("message".toList), ("Communication or notification".toList),
      [("msg".toList), ("mensaje".toList), ("mensagem".toList), ("notification".toList)]),
    (("status".toList), ("status".toList), ("Current state or condition".toList),
      [("stat".toList), ("estado".toList), ("state".toList), ("sts".toList)]),
    (("active".toList), ("is_active".toList), ("Active state indicator".toList),
      [("activo".toList), ("enabled".toList), ("act".toList)]),
    (("deleted".toList), ("is_deleted".toList), ("Deletion state indicator".toList),
      [("del".toList), ("removed".toList), ("eliminado".toList)]),
    (("created_at".toList), ("created_at".toList), ("Creation timestamp".toList),
      [("created".toList), ("creation_date".toList), ("create_time".toList), ("created_dt".toList)]),
    (("updated_at".toList), ("updated_at".toList), ("Last update timestamp".toList),
      [("updated".toList), ("modified".toList), ("update_time".toList), ("updated_dt".toList)]),
    (("count".toList), ("count".toList), ("Number or quantity".toList),
      [("cnt".toList), ("cantidad".toList), ("num".toList), ("number".toList)]),
    (("total".toList), ("total".toList), ("Sum or aggregate amount".toList),
      [("tot".toList), ("sum".toList), ("total_amount".toList)]),
    (("amount".toList), ("amount".toList), ("Quantity or monetary value".toList),
      [("amt".toList), ("monto".toList), ("value".toList)]),
    (("object".toList), ("object".toList), ("Data object or entity".toList),
      [("obj".toList), ("objeto".toList), ("entity".toList)]),
    (("item".toList), ("item".toList), ("Individual element or entry".toList),
      [("itm".toList), ("elemento".toList), ("element".toList)]),
    (("list".toList), ("list".toList), ("Collection of items".toList),
      [("lst".toList), ("lista".toList), ("array".toList), ("collection".toList)]),
    (("request".toList), ("request".toList), ("API or service request".toList),
      [("req".toList), ("solicitud".toList), ("petition".toList)]),
    (("response".toList), ("response".toList), ("API or service response".toList),
      [("resp".toList), ("res".toList), ("respuesta".toList), ("reply".toList)]),
    (("configuration".toList), ("config".toList), ("System configuration".toList),
      [("cfg".toList), ("conf".toList), ("configuration".toList), ("settings".toList)]),
    (("parameter".toList), ("parameter".toList), ("Function or method parameter".toList),
      [("param".toList), ("prm".toList), ("arg".toList), ("argument".toList)]) ]

/-- The dictionary built by `_initialize_default_terms`. -/
def defaultDict : TermDict :=
  defaultTermArgs.foldl (fun m a => addTerm m a.1 a.2.1 a.2.2.1 a.2.2.2) []

/-- `TerminologyDictionary.find_matching_term`: direct lowercase lookup, then
the first part of the split name that is a key. -/
def findMatchingTerm (m : TermDict) (name : Str) : Option TermEntry :=
  match dictFind m (lowerStr name) with
  | some e => some e
  | none => (splitVariableName name).findSome? (fun p => dictFind m (lowerStr p))

/-- The `common_abbreviations` table of `VariableNameAnalyzer`. -/
def commonAbbreviations : List (Str × Str) :=
  [ (("usr".toList), ("user".toList)), (("pwd".toList), ("password".toList)),
    (("msg".toList), ("message".toList)), (("err".toList), ("error".toList)),
    (("res".toList), ("result".toList)), (("req".toList), ("request".toList)),
    (("resp".toList), ("response".toList)), (("cfg".toList), ("config".toList)),
    (("cnt".toList), ("count".toList)), (("amt".toList), ("amount".toList)),
    (("obj".toList), ("object".toList)), (("lst".toList), ("list".toList)),
    (("num".toList), ("number".toList)), (("temp".toList), ("temporary".toList)),
    (("val".toList), ("value".toList)), (("idx".toList), ("index".toList)),
    (("btn".toList), ("button".toList)), (("img".toList), ("image".toList)),
    (("src".toList), ("source".toList)), (("dest".toList), ("destination".toList)),
    (("dir".toList), ("directory".toList)), (("db".toList), ("database".toList)) ]

/-- `_expand_abbreviations`: split, replace known abbreviation parts, rejoin
with underscores. -/
def expandAbbreviations (name : Str) : Str :=
  joinSep '_' ((splitNameParts name).map (fun part =>
    match commonAbbreviations.find? (fun q => q.1 == lowerStr part) with
    | some q => q.2
    | none => part))

/-- `_has_mixed_languages`: both a Korean and a Latin letter occur. -/
def hasMixedLanguages (name : Str) : Bool :=
  name.any isHangulC && name.any isAlphaC

/-- The `korean_mappings` table of `_standardize_mixed_language`. -/
def koreanMappings : List (Str × Str) :=
  [ (("사용자".toList), ("user".toList)), (("비밀번호".toList), ("password".toList)),
    (("이름".toList), ("name".toList)), (("번호".toList), ("number".toList)),
    (("데이터".toList), ("data".toList)), (("결과".toList), ("result".toList)),
    (("상태".toList), ("status".toList)), (("메시지".toList), ("message".toList)),
    (("오류".toList), ("error".toList)), (("목록".toList), ("list".toList)),
    (("개수".toList), ("count".toList)), (("합계".toList), ("total".toList)),
    (("설정".toList), ("config".toList)), (("요청".toList), ("request".toList)),
    (("응답".toList), ("response".toList)) ]

/-- `_standardize_mixed_language`: apply every Korean-to-English replacement
in table order; if anything changed, apply the convention. -/
def standardizeMixedLanguage (name : Str) (conv : NamingConvention) : Option Str :=
  let result := koreanMappings.foldl (fun acc p => pyreplace acc p.1 p.2) name
  if result ≠ name then some (applyConvention result conv) else none

/-- The rational 0.9, in reduced constructor form so that equalities on
results evaluate by `decide`. -/
def q09 : ℚ := ⟨9, 10, by decide, by decide⟩

/-- The rational 0.85. -/
def q085 : ℚ := ⟨17, 20, by decide, by decide⟩

/-- The rational 0.95. -/
def q095 : ℚ := ⟨19, 20, by decide, by decide⟩

/-- The rational 0.8. -/
def q08 : ℚ := ⟨4, 5, by decide, by decide⟩

/-- The rational 0.75. -/
def q075 : ℚ := ⟨3, 4, by decide, by decide⟩

/-- The rational 0.7. -/
def q07 : ℚ := ⟨7, 10, by decide, by decide⟩

/-- The rational 0.6. -/
def q06 : ℚ := ⟨3, 5, by decide, by decide⟩

/-- The rational 0.5. -/
def q05 : ℚ := ⟨1, 2, by decide, by decide⟩

/-- The rational 0.4. -/
def q04 : ℚ := ⟨2, 5, by decide, by decide⟩

theorem q09_eq : q09 = 9/10 := by
  rw [q09, Rat.mk'_eq_divInt, Rat.divInt_eq_div]; norm_num

theorem q085_eq : q085 = 85/100 := by
  rw [q085, Rat.mk'_eq_divInt, Rat.divInt_eq_div]; norm_num

theorem q095_eq : q095 = 95/100 := by
  rw [q095, Rat.mk'_eq_divInt, Rat.divInt_eq_div]; norm_num

theorem q08_eq : q08 = 8/10 := by
  rw [q08, Rat.mk'_eq_divInt, Rat.divInt_eq_div]; norm_num

/-- `ReviewResult` of `variable_name_standardizer.py` (confidence as an
exact rational). -/
structure ReviewResult where
  original_name : Str
  suggested_name : Str
  reason : Str
  evidence_term : Str
  confidence : ℚ
deriving DecidableEq, Repr

/-- Reason string of the mixed-language rule. -/
def mixedReason : Str := "혼용된 언어 사용".toList

/-- Reason string of the meaningless-abbreviation rule. -/
def abbrReason : Str := "의미 없는 약어 사용".toList

/-- Reason string of the dictionary-mismatch rule. -/
def dictReason : Str := "표준 용어사전 불일치".toList

/-- Reason string of the convention-mismatch rule. -/
def convReason : Str := "명명 규칙 불일치".toList

/-- First block of `analyze_variable_name`: the mixed-language rewrite.  The
Python guard `if suggested and suggested != variable_name` requires the
rewritten name to be truthy (nonempty) and different. -/
def mixedStep (name : Str) (conv : NamingConvention) : Option ReviewResult :=
  if hasMixedLanguages name then
    match standardizeMixedLanguage name conv with
    | some s =>
      if s ≠ [] ∧ s ≠ name then
        some ⟨name, s, mixedReason, ("표준 영문 용어".toList), q09⟩
      else none
    | none => none
  else none

/-- Second block of `analyze_variable_name`: abbreviation expansion with a
dictionary hit. -/
def abbrStep (m : TermDict) (name : Str) (conv : NamingConvention) :
    Option ReviewResult :=
  if expandAbbreviations name ≠ name then
    match findMatchingTerm m (expandAbbreviations name) with
    | some t =>
      some ⟨name, applyConvention t.standard_variable_name conv, abbrReason, t.term, q085⟩
    | none => none
  else none

/-- Third block of `analyze_variable_name`: direct dictionary mismatch. -/
def dictStep (m : TermDict) (name : Str) (conv : NamingConvention) :
    Option ReviewResult :=
  match findMatchingTerm m name with
  | some t =>
    if t.standard_variable_name ≠ name then
      some ⟨name, applyConvention t.standard_variable_name conv, dictReason, t.term, q095⟩
    else none
  | none => none

/-- Fourth block of `analyze_variable_name`: convention mismatch. -/
def convStep (name : Str) (conv : NamingConvention) : Option ReviewResult :=
  if matchesConvention name conv then none
  else
    some ⟨name, applyConvention name conv, convReason, ("naming convention".toList), q08⟩

/-- `VariableNameAnalyzer.analyze_variable_name`: the prioritized rule
chain; the first block that returns a result wins. -/
def analyzeVariableName (m : TermDict) (name : Str) (conv : NamingConvention) :
    Option ReviewResult :=
  match mixedStep name conv with
  | some r => some r
  | none =>
    match abbrStep m name conv with
    | some r => some r
    | none =>
      match dictStep m name conv with
      | some r => some r
      | none => convStep name conv

/-- Tokenizer state for `re.findall(r'\b([a-zA-Z_]\w*)\b', code)`: between
runs, inside a word run that began with a letter or underscore (collecting,
reversed), or inside a word run that began with another word character
(skipped entirely, since no position inside it is a word boundary). -/
inductive WTState where
  | idle
  | skipRun
  | collect (acc : Str)

/-- Worker for `wordTokens`. -/
def wtGo : WTState → Str → List Str
  | .idle, [] => []
  | .skipRun, [] => []
  | .collect acc, [] => [acc.reverse]
  | .idle, c :: cs =>
    if isWordC c then
      if isAlphaC c || c = '_' then wtGo (.collect [c]) cs else wtGo .skipRun cs
    else wtGo .idle cs
  | .skipRun, c :: cs => if isWordC c then wtGo .skipRun cs else wtGo .idle cs
  | .collect acc, c :: cs =>
    if isWordC c then wtGo (.collect (c :: acc)) cs
    else acc.reverse :: wtGo .idle cs

/-- The identifier tokens of a source text: maximal word-character runs that
begin with an ASCII letter or underscore. -/
def wordTokens (code : Str) : List Str := wtGo .idle code

/-- Python `str.islower`: at least one cased character and no uppercase
(Hangul is uncased, as in Python). -/
def pyIslower (s : Str) : Bool := s.any isLo && s.all (fun c => !isUp c)

/-- The vote a token casts in `detect_naming_convention`, following the
`if`/`elif` chain of the source. -/
def voteOf (v : Str) : Option NamingConvention :=
  if '_' ∈ v ∧ pyIslower v then some .snake
  else if (v.head?.any isLo) ∧ (v.drop 1).any isUp then some .camel
  else if (v.head?.any isUp) ∧ v.any isLo then some .pascal
  else none

/-- Python `max(d, key=d.get)` over the counts dict: the first key (in
insertion order) whose count is maximal. -/
def maxByCount (first : NamingConvention × Nat) (rest : List (NamingConvention × Nat)) :
    NamingConvention :=
  (rest.foldl (fun b x => if x.2 > b.2 then x else b) first).1

/-- `VariableNameAnalyzer.detect_naming_convention`. -/
def detectNamingConvention (code : Str) : NamingConvention :=
  let vs := wordTokens code
  let cSnake := vs.countP (fun v => voteOf v == some .snake)
  let cCamel := vs.countP (fun v => voteOf v == some .camel)
  let cPascal := vs.countP (fun v => voteOf v == some .pascal)
  maxByCount (.snake, cSnake) [(.camel, cCamel), (.pascal, cPascal)]

/-- Origin of a `Term` in `terminology_manager.py`: the CSV source or a
manual (custom) addition. -/
inductive TermSource where
  | csv
  | manual
deriving DecidableEq, Repr

/-- `Term` of `terminology_manager.py`.  The two wall-clock timestamp fields
(`added_date`, `modified_date`) are not modelled; no claim observes them. -/
structure MTerm where
  korean_name : Str
  english_name : Str
  abbreviation : Str
  standard_variable : Str
  description : Str
  related_terms : List Str
  source : TermSource
deriving DecidableEq, Repr

/-- The `terms` dict of `TerminologyManager`, as an association list with
unique keys (`alInsert` removes the shadowed binding), because
`delete_term`/`update_term` iterate over the dict's items. -/
abbrev MgrState := List (Str × MTerm)

/-- Model of `self.terms[k] = term` for the manager (keeps keys unique). -/
def alInsert (m : MgrState) (k : Str) (v : MTerm) : MgrState :=
  (k, v) :: m.filter (fun p => ¬ p.1 = k)

/-- Model of `self.terms.get(k)` for the manager. -/
def alFind (m : MgrState) (k : Str) : Option MTerm :=
  (m.find? (fun p => p.1 == k)).map Prod.snd

/-- `TerminologyManager._add_term_to_index`. -/
def addTermToIndex (m : MgrState) (t : MTerm) : MgrState :=
  let m1 := alInsert m t.standard_variable t
  let m2 := if t.korean_name ≠ [] then alInsert m1 (lowerStr t.korean_name) t else m1
  let m3 := if t.english_name ≠ [] then alInsert m2 (lowerStr t.english_name) t else m2
  let m4 :=
    if t.abbreviation ≠ [] ∧ lowerStr t.abbreviation ≠ t.standard_variable then
      alInsert m3 (lowerStr t.abbreviation) t
    else m3
  t.related_terms.foldl
    (fun acc r => if (alFind acc r).isSome then acc else alInsert acc r t) m4

/-- The snake_case derivation used by `add_term` when no usable abbreviation
is given: lowercase, drop characters outside `\w`/`\s`, spaces to
underscores, collapse repeated underscores, strip outer underscores. -/
def deriveSnake (english : Str) : Str :=
  pyStrip '_'
    (collapseUnd
      (((lowerStr english).filter (fun c => isWordC c || isSpaceC c)).map
        (fun c => if c = ' ' then '_' else c)))

/-- The standard-variable derivation of `TerminologyManager.add_term`:
`none` exactly when the function returns `False`.  The abbreviation route is
taken whenever the abbreviation is nonempty of length at least 2 (no
alphanumeric check); otherwise the name route derives from `english_name`,
which only has to pass the initial length-at-least-2 validation. -/
def addTermStandardVar (english abbreviation : Str) : Option Str :=
  if english = [] ∨ english.length < 2 then none
  else if abbreviation ≠ [] ∧ 2 ≤ abbreviation.length then
    (if ((lowerStr abbreviation).map (fun c => if c = '-' then '_' else c)) = [] ∨
        ((lowerStr abbreviation).map (fun c => if c = '-' then '_' else c)).length < 2
     then none
     else some ((lowerStr abbreviation).map (fun c => if c = '-' then '_' else c)))
  else
    (if deriveSnake english = [] ∨ (deriveSnake english).length < 2 then none
     else some (deriveSnake english))

/-- `TerminologyManager._generate_related_terms` (the final `list(set(...))`
is modelled by duplicate removal; no claim observes the order). -/
def generateRelatedTerms (english abbreviation standard_var : Str) : List Str :=
  let r1 :=
    if abbreviation ≠ [] ∧ lowerStr abbreviation ≠ standard_var then
      [lowerStr abbreviation]
    else []
  let r2 :=
    if english ≠ [] then
      ([(lowerStr english).map (fun c => if c = ' ' then '_' else c),
        (lowerStr english).filter (fun c => ¬ c = ' '),
        (lowerStr english).map (fun c => if c = ' ' then '-' else c),
        (lowerStr english).filter isWordC]).filter
        (fun v => v ≠ standard_var ∧ 2 < v.length)
    else []
  (r1 ++ r2).dedup

/-- `TerminologyManager.add_term`: validate, derive the standard variable,
index the new term, and report success. -/
def addTermMgr (m : MgrState) (korean english abbreviation description : Str)
    (related : Option (List Str)) : Bool × MgrState :=
  match addTermStandardVar english abbreviation with
  | none => (false, m)
  | some sv =>
    let t : MTerm :=
      ⟨korean, english, abbreviation, sv,
        (if korean ≠ [] then
          (if description ≠ [] then description
           else korean ++ (" (".toList) ++ english ++ (")".toList))
         else english),
        (match related with
         | some (r :: rs) => r :: rs
         | _ => generateRelatedTerms english abbreviation sv),
        TermSource.manual⟩
    (true, addTermToIndex m t)

/-- `TerminologyManager.delete_term`: refuse missing keys and CSV-sourced
entries; otherwise remove every binding whose term has the same standard
variable. -/
def deleteTerm (m : MgrState) (key : Str) : Bool × MgrState :=
  match alFind m (lowerStr key) with
  | none => (false, m)
  | some t =>
    if t.source = TermSource.csv then (false, m)
    else
      (true, m.filter (fun p => ¬ p.2.standard_variable = t.standard_variable))

/-- `Evidence` of `advanced_analyzer.py` (the `detail` field carries the
relevant datum; the surrounding f-string text is not modelled). -/
structure Evidence where
  source : Str
  detail : Str
  weight : ℚ
deriving DecidableEq, Repr

/-- `ContextInfo` of `advanced_analyzer.py`. -/
structure ContextInfo where
  scope : Str
  usage_type : Str
  data_type : Option Str
  usage_count : Nat
  related_variables : List Str
deriving DecidableEq, Repr

/-- `AdvancedReviewResult` of `advanced_analyzer.py`. -/
structure AdvancedReviewResult where
  original_name : Str
  suggested_name : Str
  reason : Str
  evidence_term : Str
  confidence : ℚ
  evidences : List Evidence
  context : ContextInfo
  alternative_suggestions : List (Str × ℚ)
deriving DecidableEq, Repr

/-- The (larger) abbreviation table of
`EvidenceBasedAnalyzer._check_abbreviations`. -/
def advAbbreviations : List (Str × Str) :=
  commonAbbreviations ++
  [ (("ctx".toList), ("context".toList)), (("mgr".toList), ("manager".toList)),
    (("ctrl".toList), ("controller".toList)), (("svc".toList), ("service".toList)),
    (("repo".toList), ("repository".toList)), (("impl".toList), ("implementation".toList)),
    (("util".toList), ("utility".toList)), (("helper".toList), ("helper".toList)),
    (("exc".toList), ("exception".toList)), (("env".toList), ("environment".toList)),
    (("conf".toList), ("configuration".toList)), (("auth".toList), ("authentication".toList)),
    (("perm".toList), ("permission".toList)), (("admin".toList), ("administrator".toList)) ]

/-- `EvidenceBasedAnalyzer._split_name_parts`: same as the basic analyzer's
splitter but with the `parts if parts else [name]` fallback. -/
def splitNamePartsAdv (name : Str) : List Str :=
  if '_' ∈ name then pysplit '_' name
  else if '-' ∈ name then pysplit '-' name
  else
    match camelParts name with
    | [] => [name]
    | p :: ps => p :: ps

/-- `EvidenceBasedAnalyzer._check_abbreviations`. -/
def checkAbbreviationsAdv (name : Str) : Str :=
  joinSep '_' ((splitNamePartsAdv name).map (fun part =>
    match advAbbreviations.find? (fun q => q.1 == lowerStr part) with
    | some q => q.2
    | none => part))

/-- The `patterns` table of `_analyze_by_context`. -/
def contextPatterns : List (Str × List (Str × List Str)) :=
  [ (("parameter".toList),
      [ (("user".toList), [("user_id".toList), ("username".toList), ("user_data".toList)]),
        (("data".toList), [("input_data".toList), ("request_data".toList), ("payload".toList)]),
        (("config".toList), [("configuration".toList), ("settings".toList), ("options".toList)]) ]),
    (("iterator".toList),
      [ (("item".toList), [("item".toList), ("element".toList), ("entry".toList)]),
        (("user".toList), [("user".toList), ("account".toList), ("member".toList)]),
        (("data".toList), [("record".toList), ("row".toList), ("entry".toList)]) ]),
    (("local".toList),
      [ (("result".toList), [("result".toList), ("response".toList), ("output".toList)]),
        (("error".toList), [("error".toList), ("exception".toList), ("failure".toList)]),
        (("temp".toList), [("temporary".toList), ("buffer".toList), ("cache".toList)]) ]) ]

/-- Python's substring test `pat in s`. -/
def isSubstring (pat : Str) : Str → Bool
  | [] => pat.isEmpty
  | c :: cs => (dropPrefixQ pat (c :: cs)).isSome || isSubstring pat cs

/-- `EvidenceBasedAnalyzer._analyze_by_context`: first pattern key that is a
substring of the lowercased name, for the context's usage type. -/
def analyzeByContext (name : Str) (ctx : ContextInfo) : Option Str :=
  match contextPatterns.find? (fun p => p.1 == ctx.usage_type) with
  | none => none
  | some pr =>
    pr.2.findSome? (fun pat =>
      if isSubstring pat.1 (lowerStr name) then pat.2.head? else none)

/-- Stable descending insertion (by the second component), modelling
Python's stable `list.sort(key=..., reverse=True)`. -/
def insertDescBySnd (x : Str × ℚ) : List (Str × ℚ) → List (Str × ℚ)
  | [] => [x]
  | y :: ys => if y.2 < x.2 then x :: y :: ys else y :: insertDescBySnd x ys

/-- `EvidenceBasedAnalyzer._find_similar_terms`, with the
`difflib.SequenceMatcher(..).ratio()` call abstracted as the `ratio`
oracle; the claims' theorems assume only the documented range `[0, 1]`. -/
def findSimilarTerms (ratio : Str → Str → ℚ) (m : TermDict) (name : Str) :
    List (Str × ℚ) :=
  (m.filterMap (fun p =>
    if p.1 == p.2.term then
      if q06 < ratio (lowerStr name) (lowerStr p.2.term) then
        some (p.2.standard_variable_name, ratio (lowerStr name) (lowerStr p.2.term))
      else none
    else none)).foldr insertDescBySnd []

/-- Python `max(evidences, key=lambda e: e.weight)`: first maximum. -/
def maxByWeight (first : Evidence) (rest : List Evidence) : Evidence :=
  rest.foldl (fun b x => if x.weight > b.weight then x else b) first

/-- The `reason_map` of `_get_reason_from_evidence`. -/
def reasonFromEvidence (e : Evidence) : Str :=
  if e.source = ("terminology_dictionary".toList) then dictReason
  else if e.source = ("abbreviation_expansion".toList) then abbrReason
  else if e.source = ("context_analysis".toList) then ("컨텍스트 기반 개선 제안".toList)
  else if e.source = ("similarity_matching".toList) then ("유사 표준 용어 존재".toList)
  else if e.source = ("naming_convention".toList) then convReason
  else ("개선 필요".toList)

/-- `_apply_convention` of the advanced analyzer (only the snake and camel
branches exist; everything else returns the name). -/
def applyConventionAdv (name : Str) (conv : NamingConvention) : Str :=
  match conv with
  | .snake => joinSep '_' ((splitNamePartsAdv name).map lowerStr)
  | .camel =>
    match splitNamePartsAdv name with
    | [] => name
    | p :: ps => lowerStr p ++ (ps.map pycapitalize).flatten
  | _ => name

/-- The `evidences` list collected by `analyze_with_evidence`, in collection
order: exact dictionary match (weight 1.0), abbreviation expansion (0.7),
context heuristic (0.5), then up to three similarity matches (0.4 x score).
`_check_convention_issues` compares the passed `NamingConvention` enum member
against the strings `"snake_case"`/`"camelCase"` with `==`, which is always
false in Python for an enum member, so it never contributes evidence. -/
def evidenceList (ratio : Str → Str → ℚ) (m : TermDict) (name : Str)
    (ctx : ContextInfo) : List Evidence :=
  (match findMatchingTerm m name with
   | some t => [⟨("terminology_dictionary".toList), t.term, 1⟩]
   | none => []) ++
  (if checkAbbreviationsAdv name ≠ name then
    [⟨("abbreviation_expansion".toList), checkAbbreviationsAdv name, q07⟩]
   else []) ++
  (match analyzeByContext name ctx with
   | some s => [⟨("context_analysis".toList), s, q05⟩]
   | none => []) ++
  ((findSimilarTerms ratio m name).take 3).map
    (fun p => ⟨("similarity_matching".toList), p.1, q04 * p.2⟩)

/-- The candidate `(name, confidence)` suggestions collected by
`analyze_with_evidence`, in collection order. -/
def suggestionList (ratio : Str → Str → ℚ) (m : TermDict) (name : Str)
    (ctx : ContextInfo) : List (Str × ℚ) :=
  (match findMatchingTerm m name with
   | some t => [(t.standard_variable_name, q095)]
   | none => []) ++
  (if checkAbbreviationsAdv name ≠ name then
    (match findMatchingTerm m (checkAbbreviationsAdv name) with
     | some t => [(t.standard_variable_name, q085)]
     | none => [])
   else []) ++
  (match analyzeByContext name ctx with
   | some s => [(s, q075)]
   | none => []) ++
  ((findSimilarTerms ratio m name).take 3).map (fun p => (p.1, q06 * p.2))

/-- `EvidenceBasedAnalyzer.analyze_with_evidence`: collect the evidence and
candidate lists, and if any candidate exists, return the convention-formatted
best candidate with the clamped mean of the evidence weights as overall
confidence.  The similarity oracle is a parameter (see `findSimilarTerms`). -/
def analyzeWithEvidence (ratio : Str → Str → ℚ) (m : TermDict) (name : Str)
    (ctx : ContextInfo) (conv : NamingConvention) : Option AdvancedReviewResult :=
  match suggestionList ratio m name ctx with
  | [] => none
  | s0 :: srest =>
    some ⟨name,
      applyConventionAdv
        ((((s0 :: srest).foldr insertDescBySnd []).head?.map Prod.fst).getD name)
        conv,
      (match evidenceList ratio m name ctx with
       | [] => ("개선 필요".toList)
       | e0 :: erest => reasonFromEvidence (maxByWeight e0 erest)),
      applyConventionAdv
        ((((s0 :: srest).foldr insertDescBySnd []).head?.map Prod.fst).getD name)
        conv,
      min
        (if (evidenceList ratio m name ctx).isEmpty then 0
         else ((evidenceList ratio m name ctx).map Evidence.weight).sum /
           (evidenceList ratio m name ctx).length)
        1,
      evidenceList ratio m name ctx, ctx,
      (((s0 :: srest).foldr insertDescBySnd []).drop 1).take 3⟩

/-! ### Helper lemmas about the analyzer rule chain -/

theorem mixedStep_some {name : Str} {conv : NamingConvention} {r : ReviewResult}
    (h : mixedStep name conv = some r) :
    r.original_name = name ∧ r.suggested_name ≠ name ∧ r.reason = mixedReason := by
  unfold mixedStep at h
  split at h
  · split at h
    · split at h
      · rename_i hcond
        injection h with h
        subst h
        exact ⟨rfl, hcond.2, rfl⟩
      · cases h
    · cases h
  · cases h

theorem abbrStep_some {m : TermDict} {name : Str} {conv : NamingConvention}
    {r : ReviewResult} (h : abbrStep m name conv = some r) : r.reason = abbrReason := by
  unfold abbrStep at h
  split at h
  · split at h
    · injection h with h
      subst h
      rfl
    · cases h
  · cases h

theorem dictStep_some {m : TermDict} {name : Str} {conv : NamingConvention}
    {r : ReviewResult} (h : dictStep m name conv = some r) : r.reason = dictReason := by
  unfold dictStep at h
  split at h
  · rename_i t ht
    split at h
    · injection h with h; subst h; rfl
    · cases h
  · cases h

theorem convStep_some {name : Str} {conv : NamingConvention} {r : ReviewResult}
    (h : convStep name conv = some r) : r.reason = convReason := by
  unfold convStep at h
  split at h
  · cases h
  · injection h with h; subst h; rfl

/-! ### C1: no-op exclusion -/

/-- The no-op suggestion returned for `userId` under the camel convention:
the split/rejoin step turns `userId` into `user_Id`, which hits the
`user_id` entry, whose standard form reformats back to `userId`. -/
def c1Result : ReviewResult :=
  ⟨("userId".toList), ("userId".toList), abbrReason, ("user_id".toList), q085⟩

/-- C1 counterexample: the Naming Analyzer, on the default store, emits a
Suggestion whose suggested name equals the original name. -/
theorem C1_counterexample :
    analyzeVariableName defaultDict ("userId".toList) NamingConvention.camel =
      some c1Result ∧
    c1Result.suggested_name = c1Result.original_name :=
  ⟨by decide, rfl⟩

/-- C1 amended: the no-op exclusion holds on the mixed-language rule path
(the only path with an explicit inequality guard): a Suggestion whose reason
is the mixed-language reason always has `suggested != original`. -/
theorem C1_amended (m : TermDict) (name : Str) (conv : NamingConvention)
    (r : ReviewResult) (h : analyzeVariableName m name conv = some r)
    (hr : r.reason = mixedReason) : r.suggested_name ≠ r.original_name := by
  unfold analyzeVariableName at h
  cases hm : mixedStep name conv with
  | some r' =>
    rw [hm] at h
    injection h with h
    subst h
    have := mixedStep_some hm
    rw [this.1]
    exact this.2.1
  | none =>
    rw [hm] at h
    cases ha : abbrStep m name conv with
    | some r' =>
      rw [ha] at h
      injection h with h
      subst h
      exact absurd (abbrStep_some ha ▸ hr) (by decide)
    | none =>
      rw [ha] at h
      cases hd : dictStep m name conv with
      | some r' =>
        rw [hd] at h
        injection h with h
        subst h
        exact absurd (dictStep_some hd ▸ hr) (by decide)
      | none =>
        rw [hd] at h
        exact absurd (convStep_some h ▸ hr) (by decide)

/-- C1 amended, witness: a concrete identifier on which the mixed-language
rule fires, with a genuinely different suggested name. -/
theorem C1_witness :
    analyzeVariableName defaultDict ("사용자a".toList) NamingConvention.snake =
      some ⟨("사용자a".toList), ("usera".toList), mixedReason, ("표준 영문 용어".toList), q09⟩ ∧
    (("usera".toList : Str) ≠ ("사용자a".toList : Str)) :=
  ⟨by decide,
   C1_amended defaultDict ("사용자a".toList) NamingConvention.snake
     ⟨("사용자a".toList), ("usera".toList), mixedReason, ("표준 영문 용어".toList), q09⟩
     (by decide) rfl⟩

/-! ### C2: related terms map back to their entry -/

/-- The `result` entry of the default store. -/
def resultEntry : TermEntry :=
  ⟨("result".toList), ("result".toList), ("Output or return value".toList),
    [("res".toList), ("resultado".toList), ("output".toList), ("ret".toList)]⟩

/-- C2 counterexample: in the default store, the `result` entry lists `res`
among its related terms, but looking `res` up yields the `response` entry
(added later, rebinding the shared alias), not the `result` entry. -/
theorem C2_counterexample :
    dictFind defaultDict ("result".toList) = some resultEntry ∧
    (("res".toList : Str) ∈ resultEntry.related_terms) ∧
    findMatchingTerm defaultDict ("res".toList) ≠ some resultEntry :=
  ⟨by decide, by decide, by decide⟩

theorem dictFind_insert (m : TermDict) (k' k : Str) (v : TermEntry) :
    dictFind (dictInsert m k' v) k = if k' = k then some v else dictFind m k := by
  unfold dictFind dictInsert
  by_cases h : k' = k
  · subst h
    simp [List.find?_cons]
  · have hb : (k' == k) = false := by simpa using h
    simp [List.find?_cons, hb, h]

theorem dictFind_foldl_insert_same (v : TermEntry) (L : List Str) (m : TermDict)
    (k : Str) (h : dictFind m k = some v) :
    dictFind (L.foldl (fun acc x => dictInsert acc (lowerStr x) v) m) k = some v := by
  induction L generalizing m with
  | nil => exact h
  | cons x xs ih =>
    simp only [List.foldl_cons]
    apply ih
    rw [dictFind_insert]
    split
    · rfl
    · exact h

theorem dictFind_foldl_insert_mem (v : TermEntry) (L : List Str) (m : TermDict)
    (r : Str) (hr : r ∈ L) :
    dictFind (L.foldl (fun acc x => dictInsert acc (lowerStr x) v) m) (lowerStr r) =
      some v := by
  induction L generalizing m with
  | nil => cases hr
  | cons x xs ih =>
    simp only [List.foldl_cons]
    cases hr with
    | head =>
      apply dictFind_foldl_insert_same
      rw [dictFind_insert, if_pos rfl]
    | tail _ hmem => exact ih _ hmem

/-- C2 amended: right after an `add`, every related term of the entry just
added resolves (case-insensitively) to that entry; the original claim fails
because a later `add` whose related terms share an alias rebinds the alias
key to the newer entry (see the counterexample). -/
theorem C2_amended (m : TermDict) (key standard_name description : Str)
    (related : List Str) (r : Str) (hr : r ∈ related) :
    findMatchingTerm (addTerm m key standard_name description related) r =
      some ⟨key, standard_name, description, related⟩ := by
  have hfind :
      dictFind (addTerm m key standard_name description related) (lowerStr r) =
        some ⟨key, standard_name, description, related⟩ := by
    unfold addTerm
    exact dictFind_foldl_insert_mem _ related _ r hr
  unfold findMatchingTerm
  rw [hfind]

/-- C2 amended, witness: adding a term with related alias `zz` to the default
store makes `zz` resolve to the new entry. -/
theorem C2_witness :
    findMatchingTerm
      (addTerm defaultDict ("foo".toList) ("foo".toList) [] [("zz".toList)])
      ("zz".toList) =
      some ⟨("foo".toList), ("foo".toList), [], [("zz".toList)]⟩ :=
  C2_amended defaultDict ("foo".toList) ("foo".toList) [] [("zz".toList)]
    ("zz".toList) (by decide)

/-! ### C3: lookup only on indexed keys -/

/-- The `user` entry of the default store. -/
def userEntry : TermEntry :=
  ⟨("user".toList), ("user".toList), ("System user or account holder".toList),
    [("usr".toList), ("usuario".toList), ("customer".toList), ("client".toList)]⟩

/-- C3 counterexample: `foo_user` is not an indexed key of the default store
(direct lookup misses), yet the lookup operation returns the `user` entry by
matching the split part `user`. -/
theorem C3_counterexample :
    dictFind defaultDict (lowerStr ("foo_user".toList)) = none ∧
    findMatchingTerm defaultDict ("foo_user".toList) = some userEntry :=
  ⟨by decide, by decide⟩

theorem findSome?_isSome_iff {α β : Type} (f : α → Option β) (L : List α) :
    (L.findSome? f).isSome = true ↔ ∃ a ∈ L, (f a).isSome = true := by
  induction L with
  | nil => simp [List.findSome?]
  | cons x xs ih =>
    rw [List.findSome?_cons]
    cases hf : f x with
    | some b => simp [hf]
    | none => simp [hf, ih]

/-- C3 amended: the lookup returns an entry exactly when the whole key or
one of its split parts is an indexed key (case-insensitively); it returns
null only when neither is. -/
theorem C3_amended (m : TermDict) (key : Str) :
    (findMatchingTerm m key).isSome = true ↔
      ((dictFind m (lowerStr key)).isSome = true ∨
       ∃ p ∈ splitVariableName key, (dictFind m (lowerStr p)).isSome = true) := by
  unfold findMatchingTerm
  cases hd : dictFind m (lowerStr key) with
  | some e => simp [hd]
  | none =>
    simp only [hd, Option.isSome_none]
    rw [findSome?_isSome_iff]
    simp

/-! ### C7: rule priority -/

/-- The identifier for the C7 counterexample. -/
def c7Name : Str := "사용자pwd".toList

/-- C7 counterexample: on `사용자pwd` (with snake target) both the
abbreviation-expansion rule and the convention-mismatch rule are applicable,
but the analyzer returns the mixed-language suggestion (reason and
confidence differ from the abbreviation rule's). -/
theorem C7_counterexample :
    expandAbbreviations c7Name ≠ c7Name ∧
    (findMatchingTerm defaultDict (expandAbbreviations c7Name)).isSome = true ∧
    matchesConvention c7Name NamingConvention.snake = false ∧
    analyzeVariableName defaultDict c7Name NamingConvention.snake =
      some ⟨c7Name, ("userpwd".toList), mixedReason, ("표준 영문 용어".toList), q09⟩ ∧
    mixedReason ≠ abbrReason :=
  ⟨by decide, by decide, by decide, by decide, by decide⟩

/-- C7 amended: for identifiers on which the mixed-language rule is not
applicable (not both Korean and Latin letters), an applicable
abbreviation-expansion rule wins: the analyzer returns exactly the
abbreviation-based suggestion (reason `MeaninglessAbbreviation`, confidence
0.85), regardless of whether the convention-mismatch rule also applies. -/
theorem C7_amended (m : TermDict) (name : Str) (conv : NamingConvention)
    (t : TermEntry) (hmx : hasMixedLanguages name = false)
    (hne : expandAbbreviations name ≠ name)
    (ht : findMatchingTerm m (expandAbbreviations name) = some t) :
    analyzeVariableName m name conv =
      some ⟨name, applyConvention t.standard_variable_name conv, abbrReason,
        t.term, q085⟩ := by
  have hm : mixedStep name conv = none := by
    unfold mixedStep
    rw [hmx]
    rfl
  have ha : abbrStep m name conv =
      some ⟨name, applyConvention t.standard_variable_name conv, abbrReason,
        t.term, q085⟩ := by
    unfold abbrStep
    rw [if_pos hne, ht]
  unfold analyzeVariableName
  rw [hm, ha]

/-- C7 amended, witness: `usr` (all Latin) triggers the abbreviation rule
and also fails the snake regex, and the analyzer returns the
abbreviation-based suggestion. -/
theorem C7_witness :
    analyzeVariableName defaultDict ("usr".toList) NamingConvention.snake =
      some ⟨("usr".toList), ("user".toList), abbrReason, ("user".toList), q085⟩ := by
  have h := C7_amended defaultDict ("usr".toList) NamingConvention.snake userEntry
    (by decide) (by decide) (by decide)
  rw [h]
  decide

/-! ### C10: empty suggested name -/

/-! ### C8: delete semantics -/

theorem alFind_filter_ne_std (m : MgrState) (std k : Str) (t2 : MTerm)
    (h : alFind (m.filter (fun p => ¬ p.2.standard_variable = std)) k = some t2) :
    t2.standard_variable ≠ std := by
  unfold alFind at h
  cases hf : (m.filter (fun p => ¬ p.2.standard_variable = std)).find?
      (fun p => p.1 == k) with
  | none => rw [hf] at h; cases h
  | some pr =>
    rw [hf] at h
    injection h with h
    subst h
    have hmem := List.mem_of_find?_eq_some hf
    have := (List.mem_filter.mp hmem).2
    simpa using this

/-- C8 confirmed: `delete` returns `false` and leaves the store untouched
when the key is absent or the resolved entry is CSV-sourced; on a
custom-added entry it returns `true` and afterwards no key resolves to an
entry with the deleted standard variable. -/
theorem C8_delete (m : MgrState) (key : Str) :
    (alFind m (lowerStr key) = none → deleteTerm m key = (false, m)) ∧
    (∀ t, alFind m (lowerStr key) = some t → t.source = TermSource.csv →
      deleteTerm m key = (false, m)) ∧
    (∀ t, alFind m (lowerStr key) = some t → t.source = TermSource.manual →
      (deleteTerm m key).1 = true ∧
      ∀ k2 t2, alFind (deleteTerm m key).2 k2 = some t2 →
        t2.standard_variable ≠ t.standard_variable) := by
  refine ⟨?_, ?_, ?_⟩
  · intro h
    unfold deleteTerm
    simp only [h]
  · intro t ht hcsv
    unfold deleteTerm
    simp only [ht]
    rw [if_pos hcsv]
  · intro t ht hman
    have hne : ¬ t.source = TermSource.csv := by
      rw [hman]; decide
    unfold deleteTerm
    simp only [ht]
    rw [if_neg hne]
    exact ⟨rfl, fun k2 t2 h2 => alFind_filter_ne_std m _ k2 t2 h2⟩

/-- A CSV-sourced term for the C8 witness. -/
def csvTermA : MTerm :=
  ⟨[], ("alpha".toList), [], ("aa".toList), [], [], TermSource.csv⟩

/-- A custom (manual) term for the C8 witness. -/
def manTermB : MTerm :=
  ⟨[], ("beta".toList), [], ("bb".toList), [], [], TermSource.manual⟩

/-- A two-entry manager store for the C8 witness. -/
def mgr0 : MgrState := [(("aa".toList), csvTermA), (("bb".toList), manTermB)]

/-- C8 witness: deleting the CSV entry fails and leaves the store unchanged;
deleting the custom entry succeeds and removes its key. -/
theorem C8_witness :
    deleteTerm mgr0 ("aa".toList) = (false, mgr0) ∧
    (deleteTerm mgr0 ("bb".toList)).1 = true ∧
    alFind (deleteTerm mgr0 ("bb".toList)).2 ("bb".toList) = none :=
  ⟨(C8_delete mgr0 ("aa".toList)).2.1 csvTermA (by decide) rfl,
   ((C8_delete mgr0 ("bb".toList)).2.2 manTermB (by decide) rfl).1,
   by decide⟩

/-! ### C9: convention detection -/

/-- Modelled from the spec: vote per token exactly as the spec describes
(Snake iff it contains `_` and is fully lowercase, Camel iff it starts
lowercase with an embedded uppercase, Pascal iff it starts uppercase and
contains a lowercase), and return the highest-voted bucket with ties
resolved in the order Snake, Camel, Pascal. -/
def detectSpec (code : Str) : NamingConvention :=
  let vs := wordTokens code
  let cS := vs.countP (fun v => decide ('_' ∈ v ∧ pyIslower v = true))
  let cC := vs.countP (fun v =>
    decide ((v.head?.any isLo) = true ∧ ((v.drop 1).any isUp) = true))
  let cP := vs.countP (fun v =>
    decide ((v.head?.any isUp) = true ∧ (v.any isLo) = true))
  if cC ≤ cS ∧ cP ≤ cS then NamingConvention.snake
  else if cP ≤ cC then NamingConvention.camel
  else NamingConvention.pascal

theorem pyIslower_no_up {v : Str} (h : pyIslower v = true) :
    ∀ c ∈ v, isUp c = false := by
  unfold pyIslower at h
  rw [Bool.and_eq_true] at h
  intro c hc
  simpa using List.all_eq_true.mp h.2 c hc

theorem not_isUp_of_isLo {c : Char} (h : isLo c = true) : isUp c = false := by
  simp only [isLo, decide_eq_true_eq] at h
  simp only [isUp, decide_eq_false_iff_not]
  omega

theorem voteOf_snake_iff (v : Str) :
    (voteOf v == some NamingConvention.snake) = true ↔
      ('_' ∈ v ∧ pyIslower v = true) := by
  unfold voteOf
  split_ifs with h1 h2 h3
  · exact iff_of_true (by decide) h1
  · exact iff_of_false (by decide) h1
  · exact iff_of_false (by decide) h1
  · exact iff_of_false (by decide) h1

theorem voteOf_camel_iff (v : Str) :
    (voteOf v == some NamingConvention.camel) = true ↔
      ((v.head?.any isLo) = true ∧ ((v.drop 1).any isUp) = true) := by
  unfold voteOf
  split_ifs with h1 h2 h3
  · refine iff_of_false (by decide) ?_
    rintro ⟨-, hup⟩
    rcases List.any_eq_true.mp hup with ⟨c, hc, hcup⟩
    have := pyIslower_no_up h1.2 c (List.mem_of_mem_drop hc)
    simp_all
  · exact iff_of_true (by decide) h2
  · exact iff_of_false (by decide) h2
  · exact iff_of_false (by decide) h2

theorem voteOf_pascal_iff (v : Str) :
    (voteOf v == some NamingConvention.pascal) = true ↔
      ((v.head?.any isUp) = true ∧ (v.any isLo) = true) := by
  unfold voteOf
  split_ifs with h1 h2 h3
  · refine iff_of_false (by decide) ?_
    rintro ⟨hup, -⟩
    cases v with
    | nil => simp [Option.any] at hup
    | cons c cs =>
      simp only [List.head?_cons, Option.any_some] at hup
      have := pyIslower_no_up h1.2 c (List.mem_cons_self c cs)
      simp_all
  · refine iff_of_false (by decide) ?_
    rintro ⟨hup, -⟩
    cases v with
    | nil => simp [Option.any] at hup
    | cons c cs =>
      simp only [List.head?_cons, Option.any_some] at hup
      have hlo := h2.1
      simp only [List.head?_cons, Option.any_some] at hlo
      have := not_isUp_of_isLo hlo
      simp_all
  · exact iff_of_true (by decide) h3
  · exact iff_of_false (by decide) h3

theorem maxByCount_three (a b d : Nat) :
    maxByCount (NamingConvention.snake, a)
      [(NamingConvention.camel, b), (NamingConvention.pascal, d)] =
      (if b ≤ a ∧ d ≤ a then NamingConvention.snake
       else if d ≤ b then NamingConvention.camel
       else NamingConvention.pascal) := by
  unfold maxByCount
  simp only [List.foldl_cons, List.foldl_nil]
  split_ifs <;> first | rfl | omega

/-- C9 confirmed: the Convention Detector votes per token exactly as the
claim describes and returns the highest-count bucket, ties (including the
all-zero case) resolved in favor of the earliest bucket in the order Snake,
Camel, Pascal. -/
theorem C9_detect (code : Str) : detectNamingConvention code = detectSpec code := by
  unfold detectNamingConvention detectSpec
  dsimp only
  rw [List.countP_congr
        (fun x _ => (voteOf_snake_iff x).trans decide_eq_true_iff.symm),
      List.countP_congr
        (fun x _ => (voteOf_camel_iff x).trans decide_eq_true_iff.symm),
      List.countP_congr
        (fun x _ => (voteOf_pascal_iff x).trans decide_eq_true_iff.symm),
      maxByCount_three]

/-! ### C5: add failure conditions -/

/-- Modelled from the claim: a standard form of length at least 2 is
derivable when the abbreviation has length at least 2 and consists solely of
alphanumerics with separators, or when the name has length greater than 2
and the snake-case derivation has length at least 2. -/
def specAddSucceeds (english abbreviation : Str) : Bool :=
  (2 ≤ abbreviation.length &&
    (abbreviation.filter (fun c => ¬(c = '_' ∨ c = '-'))).all isAlnumC &&
    !(abbreviation.filter (fun c => ¬(c = '_' ∨ c = '-'))).isEmpty) ||
  (2 < english.length && 2 ≤ (deriveSnake english).length)

/-- C5 counterexample: for the two-character name `ab` with no abbreviation,
the claim's conditions say the add must fail (the derivation route requires
name length > 2), but `add_term` succeeds. -/
theorem C5_counterexample :
    specAddSucceeds ("ab".toList) [] = false ∧
    (addTermMgr [] [] ("ab".toList) [] [] none).1 = true :=
  ⟨by decide, by decide⟩

theorem addTermStandardVar_eq_none_iff (english abbreviation : Str) :
    addTermStandardVar english abbreviation = none ↔
      (english.length < 2 ∨
        (abbreviation.length < 2 ∧ (deriveSnake english).length < 2)) := by
  unfold addTermStandardVar
  by_cases h0 : english = [] ∨ english.length < 2
  · rw [if_pos h0]
    have he : english.length < 2 := by
      rcases h0 with h | h
      · simp [h]
      · exact h
    simp [he]
  · rw [if_neg h0]
    push_neg at h0
    by_cases ha : abbreviation ≠ [] ∧ 2 ≤ abbreviation.length
    · rw [if_pos ha]
      have hlen :
          (((lowerStr abbreviation).map (fun c => if c = '-' then '_' else c)).length) =
            abbreviation.length := by
        simp [lowerStr]
      rw [if_neg ?_]
      · constructor
        · intro h; cases h
        · intro h
          rcases h with h | ⟨h, -⟩
          · omega
          · omega
      · rintro (h | h)
        · rw [h] at hlen
          simp at hlen
          omega
        · omega
    · rw [if_neg ha]
      push_neg at ha
      have habb : abbreviation.length < 2 := by
        by_cases hab : abbreviation = []
        · simp [hab]
        · exact ha hab
      by_cases hd : deriveSnake english = [] ∨ (deriveSnake english).length < 2
      · rw [if_pos hd]
        have hdl : (deriveSnake english).length < 2 := by
          rcases hd with h | h
          · simp [h]
          · exact h
        constructor
        · intro
          exact Or.inr ⟨habb, hdl⟩
        · intro
          rfl
      · rw [if_neg hd]
        push_neg at hd
        constructor
        · intro h; cases h
        · intro h
          rcases h with h | ⟨-, h⟩
          · omega
          · exact absurd h (by omega)

/-- C5 amended: `add` returns `false` exactly when the name has length less
than 2, or the abbreviation has length less than 2 (so the derivation route
is used) and the snake-case derivation of the name has length less than 2.
There is no alphanumeric check on the abbreviation, and the derivation route
requires only name length at least 2.  On failure the store is unchanged. -/
theorem C5_amended (m : MgrState) (korean english abbreviation description : Str)
    (related : Option (List Str)) :
    ((addTermMgr m korean english abbreviation description related).1 = false ↔
      (english.length < 2 ∨
        (abbreviation.length < 2 ∧ (deriveSnake english).length < 2))) ∧
    ((addTermMgr m korean english abbreviation description related).1 = false →
      (addTermMgr m korean english abbreviation description related).2 = m) := by
  unfold addTermMgr
  cases hsv : addTermStandardVar english abbreviation with
  | none =>
    have hiff := (addTermStandardVar_eq_none_iff english abbreviation).mp hsv
    exact ⟨by simpa using hiff, fun _ => rfl⟩
  | some sv =>
    have hne : ¬(english.length < 2 ∨
        (abbreviation.length < 2 ∧ (deriveSnake english).length < 2)) := by
      intro hr
      rw [(addTermStandardVar_eq_none_iff english abbreviation).mpr hr] at hsv
      cases hsv
    constructor
    · simpa using hne
    · intro h
      exact absurd h (by simp)

/-- C5 amended, witness: adding with a one-letter name fails and leaves the
store unchanged. -/
theorem C5_witness :
    (addTermMgr [] [] ("x".toList) [] [] none).1 = false ∧
    (addTermMgr [] [] ("x".toList) [] [] none).2 = [] :=
  ⟨(C5_amended [] [] ("x".toList) [] [] none).1.mpr (by decide),
   (C5_amended [] [] ("x".toList) [] [] none).2
     ((C5_amended [] [] ("x".toList) [] [] none).1.mpr (by decide))⟩

/-! ### C4: convention idempotence -/

theorem lowerChar_toNat (c : Char) :
    (lowerChar c).toNat =
      if 65 ≤ c.toNat ∧ c.toNat ≤ 90 then c.toNat + 32 else c.toNat := by
  unfold lowerChar
  split <;> rfl

theorem lowerChar_eq_self {c : Char} (h : ¬(65 ≤ c.toNat ∧ c.toNat ≤ 90)) :
    lowerChar c = c := dif_neg h

theorem isLo_lowerChar_of_alpha {c : Char} (h : isAlphaC c = true) :
    isLo (lowerChar c) = true := by
  have ht := lowerChar_toNat c
  simp only [isAlphaC, isUp, isLo, Bool.or_eq_true, decide_eq_true_eq] at h ⊢
  split at ht <;> omega

theorem lowerChar_idem (c : Char) : lowerChar (lowerChar c) = lowerChar c := by
  by_cases h : 65 ≤ c.toNat ∧ c.toNat ≤ 90
  · apply lowerChar_eq_self
    rw [lowerChar_toNat, if_pos h]
    omega
  · rw [lowerChar_eq_self h, lowerChar_eq_self h]

theorem lowerChar_eq_low {c d : Char} (hd : d.toNat < 97) (h : lowerChar c = d) :
    c = d := by
  by_cases hc : 65 ≤ c.toNat ∧ c.toNat ≤ 90
  · exfalso
    have := congrArg Char.toNat h
    rw [lowerChar_toNat, if_pos hc] at this
    omega
  · rwa [lowerChar_eq_self hc] at h

theorem lowerStr_idem (s : Str) : lowerStr (lowerStr s) = lowerStr s := by
  unfold lowerStr
  rw [List.map_map]
  exact List.map_congr_left (fun c _ => lowerChar_idem c)

theorem not_mem_lowerStr {s : Str} {d : Char} (hd : d.toNat < 97) (h : d ∉ s) :
    d ∉ lowerStr s := by
  intro hm
  rcases List.mem_map.mp hm with ⟨c, hc, he⟩
  exact h ((lowerChar_eq_low hd he) ▸ hc)

theorem pysplit_ne_nil (sep : Char) (s : Str) : pysplit sep s ≠ [] := by
  induction s with
  | nil => simp [pysplit]
  | cons c cs ih =>
    unfold pysplit
    split
    · simp
    · cases h : pysplit sep cs with
      | nil => simp
      | cons p ps => simp

theorem not_mem_of_mem_pysplit {sep : Char} {s p : Str} (h : p ∈ pysplit sep s) :
    sep ∉ p := by
  induction s generalizing p with
  | nil =>
    simp [pysplit] at h
    subst h
    simp
  | cons c cs ih =>
    unfold pysplit at h
    split at h
    · rcases List.mem_cons.mp h with h | h
      · subst h; simp
      · exact ih h
    · rename_i hne
      cases hsp : pysplit sep cs with
      | nil =>
        rw [hsp] at h
        simp at h
        subst h
        intro hmem
        simp at hmem
        exact hne hmem.symm
      | cons q qs =>
        rw [hsp] at h
        rcases List.mem_cons.mp h with h | h
        · subst h
          intro hmem
          rcases List.mem_cons.mp hmem with h' | h'
          · exact hne h'.symm
          · exact ih (p := q) (by rw [hsp]; exact List.mem_cons_self q qs) h'
        · exact ih (by rw [hsp]; exact List.mem_cons_of_mem _ h)

theorem mem_of_mem_pysplit {sep : Char} {s p : Str} {c : Char}
    (hp : p ∈ pysplit sep s) (hc : c ∈ p) : c ∈ s := by
  induction s generalizing p with
  | nil =>
    simp [pysplit] at hp
    subst hp
    cases hc
  | cons x cs ih =>
    unfold pysplit at hp
    split at hp
    · rcases List.mem_cons.mp hp with h | h
      · subst h; cases hc
      · exact List.mem_cons_of_mem _ (ih h hc)
    · cases hsp : pysplit sep cs with
      | nil =>
        rw [hsp] at hp
        simp at hp
        subst hp
        simp at hc
        subst hc
        exact List.mem_cons_self _ _
      | cons q qs =>
        rw [hsp] at hp
        rcases List.mem_cons.mp hp with h | h
        · subst h
          rcases List.mem_cons.mp hc with h' | h'
          · subst h'; exact List.mem_cons_self _ _
          · exact List.mem_cons_of_mem _
              (ih (by rw [hsp]; exact List.mem_cons_self q qs) h')
        · exact List.mem_cons_of_mem _
            (ih (by rw [hsp]; exact List.mem_cons_of_mem _ h) hc)

theorem pysplit_length_two {sep : Char} {s : Str} (h : sep ∈ s) :
    2 ≤ (pysplit sep s).length := by
  induction s with
  | nil => cases h
  | cons c cs ih =>
    unfold pysplit
    split
    · have h1 : 0 < (pysplit sep cs).length :=
        List.length_pos.mpr (pysplit_ne_nil sep cs)
      simp only [List.length_cons]
      omega
    · rename_i hne
      have hmem : sep ∈ cs := by
        rcases List.mem_cons.mp h with h' | h'
        · exact absurd h'.symm hne
        · exact h'
      have h2 := ih hmem
      cases hsp : pysplit sep cs with
      | nil => exact absurd hsp (pysplit_ne_nil sep cs)
      | cons q qs =>
        rw [hsp] at h2
        simp only [List.length_cons] at h2 ⊢
        omega

theorem pysplit_no_sep {sep : Char} {s : Str} (h : sep ∉ s) :
    pysplit sep s = [s] := by
  induction s with
  | nil => rfl
  | cons c cs ih =>
    unfold pysplit
    rw [if_neg (fun he => h (List.mem_cons.mpr (Or.inl he.symm))),
        ih (fun hm => h (List.mem_cons_of_mem _ hm))]

theorem pysplit_cons (sep c : Char) (cs : Str) :
    pysplit sep (c :: cs) =
      if c = sep then [] :: pysplit sep cs
      else
        match pysplit sep cs with
        | [] => [[c]]
        | p :: ps => (c :: p) :: ps := rfl

theorem pysplit_append_cons {sep : Char} {p t : Str} (h : sep ∉ p) :
    pysplit sep (p ++ sep :: t) = p :: pysplit sep t := by
  induction p with
  | nil =>
    show pysplit sep (sep :: t) = [] :: pysplit sep t
    rw [pysplit_cons, if_pos rfl]
  | cons c cs ih =>
    have hc : ¬(c = sep) := fun he => h (List.mem_cons.mpr (Or.inl he.symm))
    rw [List.cons_append, pysplit_cons, if_neg hc,
        ih (fun hm => h (List.mem_cons_of_mem _ hm))]

theorem joinSep_two_mem {sep : Char} {L : List Str} (h : 2 ≤ L.length) :
    sep ∈ joinSep sep L := by
  match L, h with
  | p :: q :: rest, _ =>
    show sep ∈ p ++ sep :: joinSep sep (q :: rest)
    exact List.mem_append.mpr (Or.inr (List.mem_cons_self _ _))

theorem pysplit_joinSep {sep : Char} (L : List Str) (hne : L ≠ [])
    (h : ∀ p ∈ L, sep ∉ p) : pysplit sep (joinSep sep L) = L := by
  induction L with
  | nil => cases hne rfl
  | cons p ps ih =>
    cases ps with
    | nil => exact pysplit_no_sep (h p (List.mem_cons_self _ _))
    | cons q qs =>
      show pysplit sep (p ++ sep :: joinSep sep (q :: qs)) = p :: q :: qs
      rw [pysplit_append_cons (h p (List.mem_cons_self _ _)),
          ih (by simp) (fun r hr => h r (List.mem_cons_of_mem _ hr))]

theorem cpGo_low_acc (s : Str) : ∀ acc : Str, (∀ c ∈ s, isLo c = true) →
    cpGo (some (false, acc)) s = [acc.reverse ++ s] := by
  induction s with
  | nil =>
    intro acc _
    simp [cpGo]
  | cons c cs ih =>
    intro acc h
    have hc : isLo c = true := h c (List.mem_cons_self _ _)
    unfold cpGo
    rw [if_pos hc, ih (c :: acc) (fun d hd => h d (List.mem_cons_of_mem _ hd))]
    simp

theorem camelParts_all_lo {s : Str} (hne : s ≠ []) (h : ∀ c ∈ s, isLo c = true) :
    camelParts s = [s] := by
  cases s with
  | nil => cases hne rfl
  | cons c cs =>
    have hc := h c (List.mem_cons_self _ _)
    unfold camelParts cpGo
    rw [if_pos hc, cpGo_low_acc cs [c] (fun d hd => h d (List.mem_cons_of_mem _ hd))]
    simp

/-- Invariant for the pending state of the case-segmentation scanner. -/
def pendOK : Option (Bool × Str) → Prop
  | none => True
  | some (_, acc) => acc ≠ [] ∧ ∀ c ∈ acc, isAlphaC c = true

theorem isAlphaC_of_isLo {c : Char} (h : isLo c = true) : isAlphaC c = true := by
  simp [isAlphaC, h]

theorem isAlphaC_of_isUp {c : Char} (h : isUp c = true) : isAlphaC c = true := by
  simp [isAlphaC, h]

theorem cpGo_parts : ∀ (s : Str) (pend : Option (Bool × Str)), pendOK pend →
    ∀ p ∈ cpGo pend s, p ≠ [] ∧ ∀ c ∈ p, isAlphaC c = true := by
  intro s
  induction s with
  | nil =>
    intro pend hok p hp
    match pend, hok with
    | none, _ => simp [cpGo] at hp
    | some (b, acc), hok =>
      simp [cpGo] at hp
      subst hp
      refine ⟨by simpa using hok.1, ?_⟩
      intro c hc
      exact hok.2 c (List.mem_reverse.mp hc)
  | cons c cs ih =>
    intro pend hok p hp
    match pend, hok with
    | none, _ =>
      unfold cpGo at hp
      split at hp
      · rename_i hlo
        exact ih (some (false, [c])) ⟨by simp, by simpa using isAlphaC_of_isLo hlo⟩ p hp
      · split at hp
        · rename_i hup
          exact ih (some (true, [c])) ⟨by simp, by simpa using isAlphaC_of_isUp hup⟩ p hp
        · exact ih none trivial p hp
    | some (false, acc), hok =>
      obtain ⟨hne_acc, hacc⟩ := hok
      unfold cpGo at hp
      split at hp
      · rename_i hlo
        refine ih (some (false, c :: acc)) ⟨by simp, ?_⟩ p hp
        intro d hd
        rcases List.mem_cons.mp hd with h | h
        · exact h ▸ isAlphaC_of_isLo hlo
        · exact hacc d h
      · split at hp
        · rename_i hup
          rcases List.mem_cons.mp hp with h | h
          · subst h
            exact ⟨by simpa using hne_acc,
              fun d hd => hacc d (List.mem_reverse.mp hd)⟩
          · exact ih (some (true, [c]))
              ⟨by simp, by simpa using isAlphaC_of_isUp hup⟩ p h
        · rcases List.mem_cons.mp hp with h | h
          · subst h
            exact ⟨by simpa using hne_acc,
              fun d hd => hacc d (List.mem_reverse.mp hd)⟩
          · exact ih none trivial p h
    | some (true, acc), hok =>
      obtain ⟨hne_acc, hacc⟩ := hok
      unfold cpGo at hp
      split at hp
      · rename_i hup
        refine ih (some (true, c :: acc)) ⟨by simp, ?_⟩ p hp
        intro d hd
        rcases List.mem_cons.mp hd with h | h
        · exact h ▸ isAlphaC_of_isUp hup
        · exact hacc d h
      · split at hp
        · rename_i hlo
          cases acc with
          | nil => exact absurd rfl hne_acc
          | cons u rest =>
            have hu : isAlphaC u = true := hacc u (List.mem_cons_self _ _)
            have hrest : ∀ d ∈ rest, isAlphaC d = true :=
              fun d hd => hacc d (List.mem_cons_of_mem _ hd)
            have hnew : pendOK (some (false, [c, u])) := by
              refine ⟨by simp, ?_⟩
              intro d hd
              rcases List.mem_cons.mp hd with h | h
              · exact h ▸ isAlphaC_of_isLo hlo
              · simp at h
                exact h ▸ hu
            have hp2 : p ∈
                (if rest = [] then cpGo (some (false, [c, u])) cs
                 else rest.reverse :: cpGo (some (false, [c, u])) cs) := hp
            split at hp2
            · exact ih (some (false, [c, u])) hnew p hp2
            · rename_i hrne
              rcases List.mem_cons.mp hp2 with h | h
              · subst h
                exact ⟨by simpa using hrne,
                  fun d hd => hrest d (List.mem_reverse.mp hd)⟩
              · exact ih (some (false, [c, u])) hnew p h
        · split at hp
          · exact ih none trivial p hp
          · rcases List.mem_cons.mp hp with h | h
            · subst h
              exact ⟨by simpa using hne_acc,
                fun d hd => hacc d (List.mem_reverse.mp hd)⟩
            · exact ih none trivial p h

theorem snake_fix_of_parts (L : List Str) (h2 : 2 ≤ L.length)
    (hnl : ∀ p ∈ L, '_' ∉ p) :
    applyConvention (joinSep '_' (L.map lowerStr)) NamingConvention.snake =
      joinSep '_' (L.map lowerStr) := by
  have hmem : '_' ∈ joinSep '_' (L.map lowerStr) :=
    joinSep_two_mem (by simpa using h2)
  show joinSep '_'
      ((splitNameParts (joinSep '_' (L.map lowerStr))).map lowerStr) =
    joinSep '_' (L.map lowerStr)
  unfold splitNameParts
  rw [if_pos hmem,
      pysplit_joinSep (L.map lowerStr)
        (by
          intro hnil
          have hL : L = [] := by simpa using hnil
          rw [hL] at h2
          simp at h2)
        (by
          intro q hq
          rcases List.mem_map.mp hq with ⟨r, hr, he⟩
          exact he ▸ not_mem_lowerStr (by decide) (hnl r hr)),
      List.map_map]
  exact congrArg (joinSep '_') (List.map_congr_left (fun r _ => lowerStr_idem r))

theorem snake_fix_single (p : Str) (hne : p ≠ [])
    (hal : ∀ c ∈ p, isAlphaC c = true) :
    applyConvention (lowerStr p) NamingConvention.snake = lowerStr p := by
  have hlo : ∀ c ∈ lowerStr p, isLo c = true := by
    intro c hc
    rcases List.mem_map.mp hc with ⟨d, hd, he⟩
    exact he ▸ isLo_lowerChar_of_alpha (hal d hd)
  have hnu : '_' ∉ lowerStr p := fun hm => absurd (hlo '_' hm) (by decide)
  have hnd : '-' ∉ lowerStr p := fun hm => absurd (hlo '-' hm) (by decide)
  have hpe : lowerStr p ≠ [] := by simpa [lowerStr] using hne
  show joinSep '_' ((splitNameParts (lowerStr p)).map lowerStr) = lowerStr p
  unfold splitNameParts
  rw [if_neg hnu, if_neg hnd, camelParts_all_lo hpe hlo]
  show joinSep '_' [lowerStr (lowerStr p)] = lowerStr p
  rw [lowerStr_idem]
  rfl

/-- C4 counterexample: idempotence fails for the Camel and Pascal
formatters: `a_B_c` camel-formats to `aBC`, which reformats to `aBc`, and
`a__b` pascal-formats to `AB`, which reformats to `Ab`. -/
theorem C4_counterexample :
    (applyConvention (applyConvention ("a_B_c".toList) NamingConvention.camel)
        NamingConvention.camel ≠
      applyConvention ("a_B_c".toList) NamingConvention.camel) ∧
    (applyConvention (applyConvention ("a__b".toList) NamingConvention.pascal)
        NamingConvention.pascal ≠
      applyConvention ("a__b".toList) NamingConvention.pascal) :=
  ⟨by decide, by decide⟩

/-- C4 amended: the convention formatter is idempotent for the Snake
convention, for every string; for Camel and Pascal it is not (see the
counterexample). -/
theorem C4_amended (x : Str) :
    applyConvention (applyConvention x NamingConvention.snake)
      NamingConvention.snake = applyConvention x NamingConvention.snake := by
  show applyConvention (joinSep '_' ((splitNameParts x).map lowerStr))
      NamingConvention.snake = joinSep '_' ((splitNameParts x).map lowerStr)
  unfold splitNameParts
  by_cases h1 : '_' ∈ x
  · rw [if_pos h1]
    exact snake_fix_of_parts _ (pysplit_length_two h1)
      (fun p hp => not_mem_of_mem_pysplit hp)
  · rw [if_neg h1]
    by_cases h2 : '-' ∈ x
    · rw [if_pos h2]
      refine snake_fix_of_parts _ (pysplit_length_two h2) ?_
      intro p hp hm
      exact h1 (mem_of_mem_pysplit hp hm)
    · rw [if_neg h2]
      rcases hp : camelParts x with _ | ⟨p, ps⟩
      · decide
      · cases hps : ps with
        | nil =>
          subst hps
          have hprop := cpGo_parts x none trivial p
            (by rw [show cpGo none x = camelParts x from rfl, hp]
                exact List.mem_cons_self _ _)
          show applyConvention (joinSep '_' [lowerStr p]) NamingConvention.snake =
            joinSep '_' [lowerStr p]
          exact snake_fix_single p hprop.1 hprop.2
        | cons q qs =>
          subst hps
          refine snake_fix_of_parts (p :: q :: qs) (by simp) ?_
          intro r hr hm
          have hprop := cpGo_parts x none trivial r
            (by rw [show cpGo none x = camelParts x from rfl, hp]; exact hr)
          exact absurd (hprop.2 '_' hm) (by decide)

/-- C10 confirmed: `X1` has no underscore, no hyphen and no lowercase run,
so case segmentation yields no parts, the snake and pascal formatters return
the empty string, and the convention-mismatch rule emits a Suggestion whose
suggested name is empty. -/
theorem C10_empty_suggestion :
    camelParts ("X1".toList) = [] ∧
    applyConvention ("X1".toList) NamingConvention.snake = [] ∧
    applyConvention ("X1".toList) NamingConvention.pascal = [] ∧
    analyzeVariableName defaultDict ("X1".toList) NamingConvention.snake =
      some ⟨("X1".toList), [], convReason, ("naming convention".toList), q08⟩ :=
  ⟨by decide, by decide, by decide, by decide⟩

/-! ### C6: evidence-based confidence -/

theorem q07_eq : q07 = 7/10 := by
  rw [q07, Rat.mk'_eq_divInt, Rat.divInt_eq_div]; norm_num

theorem q06_eq : q06 = 6/10 := by
  rw [q06, Rat.mk'_eq_divInt, Rat.divInt_eq_div]; norm_num

theorem q05_eq : q05 = 5/10 := by
  rw [q05, Rat.mk'_eq_divInt, Rat.divInt_eq_div]; norm_num

theorem q04_eq : q04 = 4/10 := by
  rw [q04, Rat.mk'_eq_divInt, Rat.divInt_eq_div]; norm_num

theorem mem_insertDescBySnd {x y : Str × ℚ} {l : List (Str × ℚ)}
    (h : x ∈ insertDescBySnd y l) : x = y ∨ x ∈ l := by
  induction l with
  | nil => simpa [insertDescBySnd] using h
  | cons z zs ih =>
    unfold insertDescBySnd at h
    split at h
    · rcases List.mem_cons.mp h with h | h
      · exact Or.inl h
      · exact Or.inr h
    · rcases List.mem_cons.mp h with h | h
      · exact Or.inr (h ▸ List.mem_cons_self _ _)
      · rcases ih h with h | h
        · exact Or.inl h
        · exact Or.inr (List.mem_cons_of_mem _ h)

theorem mem_foldr_insertDesc {x : Str × ℚ} {L : List (Str × ℚ)}
    (h : x ∈ L.foldr insertDescBySnd []) : x ∈ L := by
  induction L with
  | nil => simp at h
  | cons y ys ih =>
    rcases mem_insertDescBySnd h with h | h
    · exact h ▸ List.mem_cons_self _ _
    · exact List.mem_cons_of_mem _ (ih h)

theorem findSimilarTerms_gt (ratio : Str → Str → ℚ) (m : TermDict) (name : Str) :
    ∀ p ∈ findSimilarTerms ratio m name, q06 < p.2 := by
  intro p hp
  unfold findSimilarTerms at hp
  rcases List.mem_filterMap.mp (mem_foldr_insertDesc hp) with ⟨a, _, hfa⟩
  split at hfa
  · split at hfa
    · rename_i hlt
      injection hfa with hfa
      subst hfa
      exact hlt
    · cases hfa
  · cases hfa

theorem evidenceList_ne_nil (ratio : Str → Str → ℚ) (m : TermDict) (name : Str)
    (ctx : ContextInfo) (h : suggestionList ratio m name ctx ≠ []) :
    evidenceList ratio m name ctx ≠ [] := by
  unfold evidenceList
  intro he
  apply h
  rcases List.append_eq_nil.mp he with ⟨hABC, hD⟩
  rcases List.append_eq_nil.mp hABC with ⟨hAB, hC⟩
  rcases List.append_eq_nil.mp hAB with ⟨hA, hB⟩
  unfold suggestionList
  refine List.append_eq_nil.mpr ⟨List.append_eq_nil.mpr
    ⟨List.append_eq_nil.mpr ⟨?_, ?_⟩, ?_⟩, ?_⟩
  · cases hfind : findMatchingTerm m name with
    | none => rfl
    | some t => rw [hfind] at hA; cases hA
  · by_cases hx : checkAbbreviationsAdv name ≠ name
    · rw [if_pos hx] at hB
      cases hB
    · rw [if_neg hx]
  · cases hctx : analyzeByContext name ctx with
    | none => rfl
    | some sug => rw [hctx] at hC; cases hC
  · have ht : (findSimilarTerms ratio m name).take 3 = [] := by
      cases htk : (findSimilarTerms ratio m name).take 3 with
      | nil => rfl
      | cons z zs => rw [htk] at hD; cases hD
    rw [ht]
    rfl

theorem evidenceList_weight_nonneg (ratio : Str → Str → ℚ) (m : TermDict)
    (name : Str) (ctx : ContextInfo) :
    ∀ e ∈ evidenceList ratio m name ctx, 0 ≤ e.weight := by
  intro e he
  unfold evidenceList at he
  rcases List.mem_append.mp he with hABC | heD
  · rcases List.mem_append.mp hABC with hAB | heC
    · rcases List.mem_append.mp hAB with heA | heB
      · cases hfind : findMatchingTerm m name with
        | none => rw [hfind] at heA; cases heA
        | some t =>
          rw [hfind] at heA
          simp at heA
          rw [heA]
          norm_num
      · by_cases hx : checkAbbreviationsAdv name ≠ name
        · rw [if_pos hx] at heB
          simp at heB
          rw [heB, q07_eq]
          norm_num
        · rw [if_neg hx] at heB
          cases heB
    · cases hctx : analyzeByContext name ctx with
      | none => rw [hctx] at heC; cases heC
      | some sug =>
        rw [hctx] at heC
        simp at heC
        rw [heC, q05_eq]
        norm_num
  · rcases List.mem_map.mp heD with ⟨p, hp, he'⟩
    rw [← he']
    show (0:ℚ) ≤ q04 * p.2
    have hp2 : q06 < p.2 :=
      findSimilarTerms_gt ratio m name p (List.take_subset _ _ hp)
    have h6 : (0:ℚ) < q06 := by rw [q06_eq]; norm_num
    have h4 : (0:ℚ) ≤ q04 := by rw [q04_eq]; norm_num
    exact mul_nonneg h4 (le_of_lt (lt_trans h6 hp2))

/-- C6 confirmed: whenever the evidence-based analysis returns a result, its
overall confidence is the sum of the collected evidence weights divided by
the number of evidence items, clamped above at 1.0, and this value lies in
the interval from 0 to 1. -/
theorem C6_confidence (ratio : Str → Str → ℚ) (m : TermDict) (name : Str)
    (ctx : ContextInfo) (conv : NamingConvention) (r : AdvancedReviewResult)
    (h : analyzeWithEvidence ratio m name ctx conv = some r) :
    r.confidence =
      min (((r.evidences.map Evidence.weight).sum) / r.evidences.length) 1 ∧
    0 ≤ r.confidence ∧ r.confidence ≤ 1 := by
  unfold analyzeWithEvidence at h
  cases hs : suggestionList ratio m name ctx with
  | nil => rw [hs] at h; cases h
  | cons s0 srest =>
    rw [hs] at h
    injection h with h
    subst h
    have hnil : evidenceList ratio m name ctx ≠ [] :=
      evidenceList_ne_nil ratio m name ctx (by rw [hs]; simp)
    have hemp : (evidenceList ratio m name ctx).isEmpty = false := by
      simpa [List.isEmpty_iff] using hnil
    have hsum : (0:ℚ) ≤ ((evidenceList ratio m name ctx).map Evidence.weight).sum := by
      apply List.sum_nonneg
      intro w hw
      rcases List.mem_map.mp hw with ⟨e, he, hwe⟩
      exact hwe ▸ evidenceList_weight_nonneg ratio m name ctx e he
    have hdiv : (0:ℚ) ≤ ((evidenceList ratio m name ctx).map Evidence.weight).sum /
        (evidenceList ratio m name ctx).length :=
      div_nonneg hsum (by positivity)
    refine ⟨?_, ?_, ?_⟩
    · show min (if (evidenceList ratio m name ctx).isEmpty then 0
          else ((evidenceList ratio m name ctx).map Evidence.weight).sum /
            (evidenceList ratio m name ctx).length) 1 = _
      rw [hemp]
      rfl
    · show (0:ℚ) ≤ min (if (evidenceList ratio m name ctx).isEmpty then 0
          else ((evidenceList ratio m name ctx).map Evidence.weight).sum /
            (evidenceList ratio m name ctx).length) 1
      rw [hemp]
      show (0:ℚ) ≤ min _ 1
      exact le_min hdiv (by norm_num)
    · exact min_le_right _ _

/-- The similarity oracle for the C6 witness (constant zero, so no
similarity evidence passes the threshold). -/
def c6Ratio : Str → Str → ℚ := fun _ _ => 0

/-- A one-entry store for the C6 witness. -/
def c6Dict : TermDict :=
  addTerm [] ("user".toList) ("user".toList) ("System user".toList) [("usr".toList)]

/-- A context that matches no usage-role pattern, for the C6 witness. -/
def c6Ctx : ContextInfo := ⟨("module".toList), ("attribute".toList), none, 1, []⟩

/-- The advanced result computed for `usr` in the C6 witness. -/
def c6Result : AdvancedReviewResult :=
  (analyzeWithEvidence c6Ratio c6Dict ("usr".toList) c6Ctx
    NamingConvention.snake).get (by decide)

/-- C6 witness: a concrete advanced analysis returns a result, and its
confidence obeys the clamped-mean formula and the unit-interval bounds. -/
theorem C6_witness :
    c6Result.confidence =
      min (((c6Result.evidences.map Evidence.weight).sum) /
        c6Result.evidences.length) 1 ∧
    0 ≤ c6Result.confidence ∧ c6Result.confidence ≤ 1 :=
  C6_confidence c6Ratio c6Dict ("usr".toList) c6Ctx NamingConvention.snake
    c6Result (Option.some_get _).symm

end VNS
